import Mathlib

/-!
Verification development for the MinMap mind-map editor's pure data-model
helpers (node layout, children/roots derivation, renaming with uniqueness
constraints, and category-tree mutation).

Conventions of the embedding:
* JavaScript numbers that carry positions are modelled as exact rationals
  (`ℚ`); all layout arithmetic stays in small dyadic ranges, so the model
  coincides with IEEE doubles on all realistic inputs and every coordinate
  is finite by construction.
* `parentId?: string | null` is modelled as `Option String`; the JavaScript
  falsiness test `!n.parentId` is `jsFalsy`, which is true for `none` and
  for the empty string (both are falsy in JavaScript).
* `children?: Category[]` is modelled as a plain list, with `[]` for an
  absent field (the loader `safeParseCategories` normalises all persisted
  data to arrays, so the distinction is not observable in the model).
* Object identity of nodes inside `buildChildrenMap`/`autoLayout` is
  modelled by the node's index in the input array, so in-place mutation
  becomes an index-keyed position store.
* The unbounded `while` loop of `uniqueMapName` and the recursive `place`
  of `autoLayout` (which can genuinely diverge on adversarial inputs) are
  given explicit fuel; fuel sufficiency is proved where the source
  terminates.
* `Date.now()` and the random id generator `uid()` are impure; the
  functions that call them (`renameMapInTree`, `addSubCategory`) take the
  produced value as an explicit extra argument.
-/

/-- Directional placement hint of a node (`side` field). -/
inductive Side where
  | left
  | right
  | up
  | down
deriving DecidableEq, Repr

/-- `NodeT` from the source: one mind-map box. -/
structure NodeT where
  id : String
  label : String
  x : ℚ
  y : ℚ
  parentId : Option String := none
  color : Option String := none
  side : Option Side := none
deriving DecidableEq, Repr

/-- `MindMapDoc` from the source: one saved, named snapshot of a node tree. -/
structure MindMapDoc where
  id : String
  name : String
  nodes : List NodeT
  updatedAt : Nat
deriving DecidableEq, Repr

/-- `Category` from the source: a named folder of maps and sub-folders.
`children?: Category[]` is modelled as a plain list (see module docstring). -/
inductive Category where
  | mk (id name : String) (maps : List MindMapDoc) (children : List Category)

def Category.id : Category → String
  | .mk i _ _ _ => i

def Category.name : Category → String
  | .mk _ n _ _ => n

def Category.maps : Category → List MindMapDoc
  | .mk _ _ m _ => m

def Category.children : Category → List Category
  | .mk _ _ _ c => c

-- ---------------- renameNode ----------------

/-- JavaScript `String.prototype.trim()`: drop leading and trailing
whitespace.  Implemented on the character list so that it evaluates inside
the kernel (core's `String.trim` is defined by well-founded recursion and
does not reduce); agrees with JavaScript on ASCII whitespace. -/
def jsTrim (s : String) : String :=
  String.mk ((((s.data.dropWhile Char.isWhitespace).reverse).dropWhile Char.isWhitespace).reverse)

/-- The label actually stored by `renameNode`: trim, then the literal
`"(empty)"` when the trimmed label is empty. -/
def safeLabel (newLabel : String) : String :=
  let label := jsTrim newLabel
  if label.length ≠ 0 then label else "(empty)"

/-- `renameNode(nodes, id, newLabel)` from the source. -/
def renameNode (nodes : List NodeT) (id : String) (newLabel : String) : List NodeT :=
  nodes.map fun n => if n.id = id then { n with label := safeLabel newLabel } else n

-- ---------------- uniqueMapName ----------------

/-- ASCII digit test used by `uniqueMapName` (`ch >= '0' && ch <= '9'`). -/
def isAsciiDigit (c : Char) : Bool :=
  '0' ≤ c && c ≤ '9'

/-- `root.lastIndexOf(' (')` on the character list: the greatest position
where the two-character substring `" ("` occurs, if any. -/
def lastParenStart (l : List Char) : Option Nat :=
  ((List.range l.length).filter fun p => (l.drop p).take 2 = [' ', '(']).getLast?

/-- The suffix-stripping step of `uniqueMapName`: if the name ends in
`" (<digits>)"` (at the last occurrence of `" ("`, with a nonempty all-digit
run before the closing parenthesis) drop that suffix. -/
def stripCounterSuffix (root : String) : String :=
  let l := root.toList
  match lastParenStart l with
  | none => root
  | some p =>
    if l.getLast? = some ')' then
      let num := (l.drop (p + 2)).dropLast
      if num ≠ [] ∧ num.all isAsciiDigit then String.mk (l.take p) else root
    else root

/-- The candidate `` `${root} (${i})` `` built by `uniqueMapName`'s loop. -/
def suffixedName (root : String) (i : Nat) : String :=
  root ++ " (" ++ Nat.repr i ++ ")"

/-- The `while (maps.some(...)) i++` loop of `uniqueMapName`, with fuel.
Returns the first index `≥ i` whose candidate name is unused (fuel
permitting; `uniqueMapName` supplies enough fuel, which we prove). -/
def firstFreeIndex (names : List String) (root : String) : Nat → Nat → Nat
  | 0, i => i
  | fuel + 1, i =>
    if names.contains (suffixedName root i) then firstFreeIndex names root fuel (i + 1) else i

/-- `uniqueMapName(maps, base)` from the source. -/
def uniqueMapName (maps : List MindMapDoc) (base : String) : String :=
  let root := stripCounterSuffix (jsTrim (if base = "" then "Untitled" else base))
  if maps.any (fun m => m.name = root) then
    suffixedName root (firstFreeIndex (maps.map MindMapDoc.name) root (maps.length + 1) 2)
  else root

-- ---------------- Category tree helpers ----------------

/-- `findCategoryById(list, id)` from the source: depth-first, first match. -/
def findCategoryById : List Category → String → Option Category
  | [], _ => none
  | .mk i n m ch :: rest, id =>
    if i = id then some (.mk i n m ch)
    else
      match findCategoryById ch id with
      | some deeper => some deeper
      | none => findCategoryById rest id

/-- `updateCategory(list, id, updater)` from the source.  The shallow copy
`{...c, children: [...]}` handed to the updater is the identity in a value
model.  Note the matched node's children are NOT recursed into. -/
def updateCategory : List Category → String → (Category → Category) → List Category
  | [], _, _ => []
  | .mk i n m ch :: rest, id, updater =>
    (if i = id then updater (.mk i n m ch)
     else .mk i n m (updateCategory ch id updater))
    :: updateCategory rest id updater

/-- `maps.findIndex((m) => m.name === name)`: index of the first map with
the given name (the source's `-1` result is `none`). -/
def findNameIdx (maps : List MindMapDoc) (nm : String) : Option Nat :=
  match maps with
  | [] => none
  | m :: rest => if m.name = nm then some 0 else (findNameIdx rest nm).map (· + 1)

/-- The per-list upsert step of `upsertMapInCategories`:
`findIndex` on equal `name`, replace at that index
(`Object.assign([...maps], {[i]: doc})`), else prepend. -/
def upsertDocList (maps : List MindMapDoc) (doc : MindMapDoc) : List MindMapDoc :=
  match findNameIdx maps doc.name with
  | some i => maps.set i doc
  | none => doc :: maps

/-- `upsertMapInCategories(cats, catId, doc)` from the source (the inner
`walk`; the matched category's children are not walked). -/
def upsertMapInCategories : List Category → String → MindMapDoc → List Category
  | [], _, _ => []
  | .mk i n m ch :: rest, catId, doc =>
    (if i = catId then .mk i n (upsertDocList m doc) ch
     else .mk i n m (if ch.isEmpty then ch else upsertMapInCategories ch catId doc))
    :: upsertMapInCategories rest catId doc

/-- `deleteMapFromTree(list, catId, mapId)` from the source. -/
def deleteMapFromTree (list : List Category) (catId mapId : String) : List Category :=
  updateCategory list catId fun c => .mk c.id c.name (c.maps.filter fun m => m.id ≠ mapId) c.children

/-- `addSubCategory(list, parentId, name)` from the source; the id produced
by the impure `uid()` is passed in as `newId`. -/
def addSubCategory (list : List Category) (parentId name newId : String) : List Category :=
  let child : Category := .mk newId name [] []
  updateCategory list parentId fun c => .mk c.id c.name c.maps (c.children ++ [child])

/-- `renameCategoryTree(list, id, newName)` from the source. -/
def renameCategoryTree (list : List Category) (id newName : String) : List Category :=
  let name := if jsTrim newName = "" then "(unnamed)" else jsTrim newName
  updateCategory list id fun c => .mk c.id name c.maps c.children

/-- The base name used by `renameMapInTree`: trim, with the literal
`"(unnamed map)"` fallback for an empty trim result. -/
def renameBase (newName : String) : String :=
  if jsTrim newName = "" then "(unnamed map)" else jsTrim newName

/-- `renameMapInTree(list, catId, mapId, newName)` from the source; the
timestamp produced by the impure `Date.now()` is passed in as `now`. -/
def renameMapInTree (list : List Category) (catId mapId newName : String) (now : Nat) :
    List Category :=
  updateCategory list catId fun c =>
    let name := uniqueMapName (c.maps.filter fun m => m.id ≠ mapId) (renameBase newName)
    .mk c.id c.name
      (c.maps.map fun m => if m.id = mapId then { m with name := name, updatedAt := now } else m)
      c.children

/-- `collectCategoryIds(list)` from the source: pre-order flatten of ids. -/
def collectCategoryIds : List Category → List String
  | [] => []
  | .mk i _ _ ch :: rest => i :: (collectCategoryIds ch ++ collectCategoryIds rest)

-- ---------------- buildChildrenMap / autoLayout ----------------

/-- Placeholder node produced by an out-of-range array access; its id and
parentId are chosen so that it can never be anyone's parent or child. -/
def dfltNode : NodeT :=
  { id := "", label := "", x := 0, y := 0 }

/-- JavaScript falsiness of a `string | null | undefined` value:
`null`/`undefined`/`""` are falsy. -/
def jsFalsy : Option String → Bool
  | none => true
  | some s => s = ""

/-- The key under which `buildChildrenMap` files a node: `n.parentId || null`. -/
def parentKey (n : NodeT) : Option String :=
  match n.parentId with
  | none => none
  | some s => if s = "" then none else some s

/-- The content of `byParent.get(k)` for a string key `k`, as the list of
node indices (object identity = index) in insertion order.  `byParent`
never holds the key `""` (an empty parentId is filed under `null`), so the
filter is empty for `k = ""`. -/
def childIdx (nodes : List NodeT) (k : String) : List Nat :=
  (List.range nodes.length).filter fun j => parentKey (nodes.getD j dfltNode) = some k

/-- The root condition of `buildChildrenMap`'s second pass:
`!n.parentId || !ids.has(n.parentId)`. -/
def isRootCond (nodes : List NodeT) (n : NodeT) : Bool :=
  match n.parentId with
  | none => true
  | some s => s = "" || !((nodes.map NodeT.id).contains s)

/-- The second pass of `buildChildrenMap`: walk all nodes, appending any
satisfying the root condition that is not already listed. -/
def rootsLoop (nodes : List NodeT) : List Nat → List Nat → List Nat
  | acc, [] => acc
  | acc, j :: rest =>
    if isRootCond nodes (nodes.getD j dfltNode) ∧ ¬ acc.contains j then
      rootsLoop nodes (acc ++ [j]) rest
    else rootsLoop nodes acc rest

/-- The `roots` list of `buildChildrenMap`, as node indices: the nodes filed
under `null` whose `parentId` is falsy, then the second pass. -/
def rootsIdx (nodes : List NodeT) : List Nat :=
  rootsLoop nodes
    ((List.range nodes.length).filter fun j => jsFalsy (nodes.getD j dfltNode).parentId)
    (List.range nodes.length)

/-- Mutable state threaded through `autoLayout`'s `place`: the shared leaf
cursor and the in-place `n.x = ..; n.y = ..` writes, keyed by node index
(most recent write first). -/
structure LayoutSt where
  cursorX : ℚ
  pos : List (Nat × ℚ × ℚ)

/-- Look up the most recent position write for a node index. -/
def lookupPos : List (Nat × ℚ × ℚ) → Nat → Option (ℚ × ℚ)
  | [], _ => none
  | (j, p) :: rest, i => if j = i then some p else lookupPos rest i

/-- `Math.min(...)` over a list (the nonempty case; `autoLayout` only takes
the minimum of nonempty lists, see the proofs). -/
def listMin : List ℚ → ℚ
  | [] => 0
  | x :: xs => xs.foldl min x

/-- `Math.max(...)` over a list (the nonempty case). -/
def listMax : List ℚ → ℚ
  | [] => 0
  | x :: xs => xs.foldl max x

/-- `ch.map((c) => place(c, depth + 1))` with the mutable state threaded
through a generic one-child placement function. -/
def placeChildren (f : Nat → Nat → LayoutSt → Option (LayoutSt × ℚ × ℚ)) :
    List Nat → Nat → LayoutSt → Option (LayoutSt × List (ℚ × ℚ))
  | [], _, st => some (st, [])
  | j :: rest, depth, st =>
    match f j depth st with
    | none => none
    | some (st', p) =>
      match placeChildren f rest depth st' with
      | none => none
      | some (st'', ps) => some (st'', p :: ps)

/-- `place(n, depth)` from `autoLayout`, on node indices, with fuel.  A leaf
takes the next cursor slot at `x = cursorX * H`; an internal node sits at the
midpoint of its children's min/max `x`; both at `y = depth * V` (`H = 120`,
`V = 90`).  The source recursion diverges on parent cycles reachable through
duplicate ids, hence the fuel; `none` models non-termination. -/
def place (nodes : List NodeT) : Nat → Nat → Nat → LayoutSt → Option (LayoutSt × ℚ × ℚ)
  | 0, _, _, _ => none
  | fuel + 1, i, depth, st =>
    let n := nodes.getD i dfltNode
    let ch := childIdx nodes n.id
    if ch.isEmpty then
      let x := st.cursorX * 120
      let y := (depth : ℚ) * 90
      some ({ cursorX := st.cursorX + 1, pos := (i, x, y) :: st.pos }, x, y)
    else
      match placeChildren (place nodes fuel) ch (depth + 1) st with
      | none => none
      | some (st', ps) =>
        let xs := ps.map Prod.fst
        let x := (listMin xs + listMax xs) / 2
        let y := (depth : ℚ) * 90
        some ({ st' with pos := (i, x, y) :: st'.pos }, x, y)

/-- `roots.forEach((r) => place(r, 0))` with the state threaded; fuel
`nodes.length + 1` is enough whenever the source recursion terminates
(a call-stack deeper than the node count revisits a node and diverges). -/
def layoutRun (nodes : List NodeT) : Option (LayoutSt × List (ℚ × ℚ)) :=
  placeChildren (place nodes (nodes.length + 1)) (rootsIdx nodes) 0 { cursorX := 0, pos := [] }

/-- The node list after the placement pass: every written node index takes
its recorded position, the rest keep their coordinates. -/
def applyPositions (nodes : List NodeT) (st : LayoutSt) : List NodeT :=
  (List.range nodes.length).map fun i =>
    let n := nodes.getD i dfltNode
    match lookupPos st.pos i with
    | some (x, y) => { n with x := x, y := y }
    | none => n

/-- The translation step of `autoLayout`: every node is shifted so the
bounding-box midpoint of the placed nodes sits at the origin. -/
def autoLayoutFinish (nodes : List NodeT) (st : LayoutSt) : List NodeT :=
  let placed := applyPositions nodes st
  let xs := placed.map NodeT.x
  let ys := placed.map NodeT.y
  let midX := (listMin xs + listMax xs) / 2
  let midY := (listMin ys + listMax ys) / 2
  placed.map fun n => { n with x := n.x - midX, y := n.y - midY }

/-- `autoLayout(nodes)` from the source: place all roots, then translate
every node so the bounding-box midpoint is the origin.  `none` models
non-termination of the source recursion. -/
def autoLayout (nodes : List NodeT) : Option (List NodeT) :=
  match layoutRun nodes with
  | none => none
  | some (st, _) => some (autoLayoutFinish nodes st)

/-- Whether the placement pass wrote a position for every node (every node
is reachable from a root); the side condition under which `autoLayout` is
idempotent. -/
def placedAll (nodes : List NodeT) : Bool :=
  match layoutRun nodes with
  | none => false
  | some (st, _) => (List.range nodes.length).all fun i => (lookupPos st.pos i).isSome

-- ---------------- Decimal representation: auxiliary facts ----------------

/-- The decimal digit-character list of a natural number (most significant
first); closed form of core's fueled `Nat.toDigitsCore 10`. -/
def natDigitsAux (n : Nat) : List Char :=
  if n < 10 then [Nat.digitChar n]
  else natDigitsAux (n / 10) ++ [Nat.digitChar (n % 10)]
termination_by n
decreasing_by exact Nat.div_lt_self (by omega) (by omega)

theorem toDigitsCore_eq_natDigitsAux :
    ∀ fuel n ds, 0 < fuel → n < 10 ^ fuel →
      Nat.toDigitsCore 10 fuel n ds = natDigitsAux n ++ ds := by
  intro fuel
  induction fuel with
  | zero => omega
  | succ fuel ih =>
    intro n ds _ hlt
    show (if n / 10 = 0 then Nat.digitChar (n % 10) :: ds
          else Nat.toDigitsCore 10 fuel (n / 10) (Nat.digitChar (n % 10) :: ds))
        = natDigitsAux n ++ ds
    by_cases hz : n / 10 = 0
    · have hn10 : n < 10 := by omega
      rw [if_pos hz, natDigitsAux, if_pos hn10, Nat.mod_eq_of_lt hn10]
      rfl
    · have hge : 10 ≤ n := by
        by_contra hc
        exact hz (Nat.div_eq_of_lt (by omega))
      have hfuel : 0 < fuel := by
        rcases Nat.eq_zero_or_pos fuel with h0 | h0
        · subst h0; norm_num at hlt; omega
        · exact h0
      have hdiv : n / 10 < 10 ^ fuel := by
        rw [Nat.div_lt_iff_lt_mul (by omega)]
        calc n < 10 ^ (fuel + 1) := hlt
        _ = 10 ^ fuel * 10 := by ring
      have hrhs : natDigitsAux n = natDigitsAux (n / 10) ++ [Nat.digitChar (n % 10)] := by
        rw [natDigitsAux, if_neg (by omega)]
      rw [if_neg hz, ih (n / 10) (Nat.digitChar (n % 10) :: ds) hfuel hdiv, hrhs]
      simp

theorem nat_repr_eq_natDigitsAux (n : Nat) : Nat.repr n = (natDigitsAux n).asString := by
  have hlt : n < 10 ^ (n + 1) := by
    calc n < 10 ^ n := Nat.lt_pow_self (by omega) n
    _ ≤ 10 ^ (n + 1) := Nat.pow_le_pow_right (by omega) (by omega)
  show (Nat.toDigits 10 n).asString = _
  rw [Nat.toDigits, toDigitsCore_eq_natDigitsAux (n + 1) n [] (by omega) hlt,
    List.append_nil]

/-- Numeric value of a decimal digit character. -/
def charDigitVal (c : Char) : Nat := c.toNat - 48

/-- Numeric value of a digit-character list (most significant first). -/
def digitsVal (l : List Char) : Nat := l.foldl (fun a c => 10 * a + charDigitVal c) 0

theorem charDigitVal_digitChar {d : Nat} (hd : d < 10) :
    charDigitVal (Nat.digitChar d) = d := by
  interval_cases d <;> rfl

theorem digitsVal_append_singleton (l : List Char) (c : Char) :
    digitsVal (l ++ [c]) = 10 * digitsVal l + charDigitVal c := by
  unfold digitsVal
  rw [List.foldl_append]
  rfl

theorem digitsVal_natDigitsAux (n : Nat) : digitsVal (natDigitsAux n) = n := by
  induction n using Nat.strong_induction_on with
  | _ n ih =>
    rw [natDigitsAux]
    by_cases h : n < 10
    · rw [if_pos h]
      show 10 * 0 + charDigitVal (Nat.digitChar n) = n
      rw [charDigitVal_digitChar h]
      omega
    · rw [if_neg h, digitsVal_append_singleton,
        ih (n / 10) (Nat.div_lt_self (by omega) (by omega)),
        charDigitVal_digitChar (Nat.mod_lt _ (by omega))]
      omega

theorem nat_repr_injective : Function.Injective Nat.repr := by
  intro m n h
  rw [nat_repr_eq_natDigitsAux, nat_repr_eq_natDigitsAux] at h
  have hdata : natDigitsAux m = natDigitsAux n := by
    have := congrArg String.data h
    simpa [List.asString] using this
  have := congrArg digitsVal hdata
  rwa [digitsVal_natDigitsAux, digitsVal_natDigitsAux] at this

theorem suffixedName_injective (root : String) : Function.Injective (suffixedName root) := by
  intro i j h
  unfold suffixedName at h
  have hdata := congrArg String.data h
  simp only [String.data_append] at hdata
  have h1 := List.append_cancel_right hdata
  have h2 := List.append_cancel_left h1
  exact nat_repr_injective (String.ext h2)

-- ---------------- uniqueMapName: correctness of the suffix search ----------------

theorem firstFreeIndex_spec (names : List String) (root : String) :
    ∀ fuel start,
      (∃ k, start ≤ k ∧ k < start + fuel ∧ ¬ names.contains (suffixedName root k)) →
      ¬ names.contains (suffixedName root (firstFreeIndex names root fuel start)) ∧
        start ≤ firstFreeIndex names root fuel start ∧
        ∀ j, start ≤ j → j < firstFreeIndex names root fuel start →
          names.contains (suffixedName root j) := by
  intro fuel
  induction fuel with
  | zero =>
    intro start ⟨k, h1, h2, _⟩
    omega
  | succ fuel ih =>
    intro start hex
    by_cases hc : names.contains (suffixedName root start)
    · rw [firstFreeIndex, if_pos hc]
      obtain ⟨k, hk1, hk2, hk3⟩ := hex
      have hkne : k ≠ start := fun h => hk3 (h ▸ hc)
      have ⟨r1, r2, r3⟩ := ih (start + 1) ⟨k, by omega, by omega, hk3⟩
      refine ⟨r1, by omega, fun j hj1 hj2 => ?_⟩
      rcases Nat.eq_or_lt_of_le hj1 with he | hl
      · exact he ▸ hc
      · exact r3 j (by omega) hj2
    · rw [firstFreeIndex, if_neg hc]
      exact ⟨hc, Nat.le_refl _, fun j hj1 hj2 => absurd (Nat.lt_of_le_of_lt hj1 hj2)
        (Nat.lt_irrefl _)⟩

/-- Pigeonhole: among any `names.length + 1` consecutive candidate names,
at least one is unused. -/
theorem exists_free_suffix (names : List String) (root : String) (start : Nat) :
    ∃ k, start ≤ k ∧ k < start + (names.length + 1) ∧
      ¬ names.contains (suffixedName root k) := by
  by_contra hall
  push_neg at hall
  have htaken : ∀ k, start ≤ k → k < start + (names.length + 1) →
      suffixedName root k ∈ names := by
    intro k h1 h2
    have h := hall k h1 h2
    obtain ⟨x, hx, he⟩ := List.contains_iff_exists_mem_beq.mp h
    exact (eq_of_beq he) ▸ hx
  have hsub : ((List.range (names.length + 1)).map
      fun t => suffixedName root (start + t)) ⊆ names := by
    intro s hs
    obtain ⟨t, ht, rfl⟩ := List.mem_map.mp hs
    exact htaken (start + t) (by omega) (by have := List.mem_range.mp ht; omega)
  have hnd : ((List.range (names.length + 1)).map
      fun t => suffixedName root (start + t)).Nodup := by
    refine List.Nodup.map ?_ (List.nodup_range _)
    intro a b hab
    have := suffixedName_injective root hab
    omega
  have := (List.subperm_of_subset hnd hsub).length_le
  simp at this

theorem contains_iff_mem (l : List String) (s : String) : l.contains s ↔ s ∈ l :=
  List.elem_iff

/-- Maps named `X`, `X (2)`, `X (10)` for the repository's own test case. -/
def exDocX : MindMapDoc := { id := "1", name := "X", nodes := [], updatedAt := 0 }

def exDocX2 : MindMapDoc := { id := "2", name := "X (2)", nodes := [], updatedAt := 0 }

def exDocX10 : MindMapDoc := { id := "3", name := "X (10)", nodes := [], updatedAt := 0 }

/-- C1: `uniqueMapName` strips a trailing `" (digits)"` suffix from the
trimmed base to obtain the root; if no existing map bears the root name it
returns the root unchanged, otherwise `root ++ " (i)"` for the smallest
`i ≥ 2` whose suffixed name is unused.  In particular, with maps named
`X`, `X (2)`, `X (10)`, base `"X (10)"` yields `"X (3)"`, not `"X (11)"`. -/
theorem claim_C1 :
    (∀ (maps : List MindMapDoc) (base root : String) (names : List String),
      root = stripCounterSuffix (jsTrim (if base = "" then "Untitled" else base)) →
      names = maps.map MindMapDoc.name →
      (root ∉ names → uniqueMapName maps base = root) ∧
      (root ∈ names →
        ∃ i, 2 ≤ i ∧ uniqueMapName maps base = suffixedName root i ∧
          suffixedName root i ∉ names ∧
          ∀ j, 2 ≤ j → j < i → suffixedName root j ∈ names)) ∧
    uniqueMapName [exDocX, exDocX2, exDocX10] "X (10)" = "X (3)" := by
  constructor
  · intro maps base root names hroot hnames
    have hany : maps.any (fun m => m.name = root) = true ↔ root ∈ names := by
      rw [List.any_eq_true, hnames]
      constructor
      · rintro ⟨m, hm, he⟩
        exact List.mem_map.mpr ⟨m, hm, of_decide_eq_true he⟩
      · intro h
        obtain ⟨m, hm, he⟩ := List.mem_map.mp h
        exact ⟨m, hm, decide_eq_true he⟩
    constructor
    · intro hni
      rw [uniqueMapName, ← hroot, if_neg (fun h => hni (hany.mp h))]
    · intro hin
      rw [uniqueMapName, ← hroot, if_pos (hany.mpr hin)]
      have hex := exists_free_suffix (maps.map MindMapDoc.name) root 2
      rw [List.length_map] at hex
      have hspec := firstFreeIndex_spec (maps.map MindMapDoc.name) root (maps.length + 1) 2 hex
      rw [hnames]
      refine ⟨_, hspec.2.1, rfl, ?_, ?_⟩
      · intro h
        exact hspec.1 ((contains_iff_mem _ _).mpr h)
      · intro j hj1 hj2
        exact (contains_iff_mem _ _).mp (hspec.2.2 j hj1 hj2)
  · decide

/-- Closed-instance witness for C1's quantified part: with one existing map
named `"A"` and base `"A"`, the root collides and the smallest free index is
taken. -/
theorem claim_C1_witness :
    ("A" : String) ∈ ["A"] ∧
      ∃ i, 2 ≤ i ∧
        uniqueMapName [{ id := "0", name := "A", nodes := [], updatedAt := 0 }] "A" =
          suffixedName "A" i ∧
        suffixedName "A" i ∉ ["A"] ∧
        ∀ j, 2 ≤ j → j < i → suffixedName "A" j ∈ ["A"] :=
  ⟨by decide,
    (claim_C1.1 [{ id := "0", name := "A", nodes := [], updatedAt := 0 }] "A" "A" ["A"]
      (by decide) rfl).2 (by decide)⟩

/-- C6: `renameNode` returns a sequence of the same length; the node with
the given id gets the trimmed label (or `"(empty)"` if the trim result is
empty) and keeps all other fields; every other node is unchanged. -/
theorem claim_C6 (nodes : List NodeT) (id newLabel : String) :
    (renameNode nodes id newLabel).length = nodes.length ∧
    ∀ (k : Nat) (n : NodeT), nodes[k]? = some n →
      (n.id ≠ id → (renameNode nodes id newLabel)[k]? = some n) ∧
      (n.id = id → (renameNode nodes id newLabel)[k]? =
        some { n with label := if jsTrim newLabel = "" then "(empty)" else jsTrim newLabel }) := by
  have hsafe : safeLabel newLabel = if jsTrim newLabel = "" then "(empty)" else jsTrim newLabel := by
    rw [safeLabel]
    by_cases h : jsTrim newLabel = ""
    · simp [h]
    · have hne : (jsTrim newLabel).length ≠ 0 := by
        intro hl
        apply h
        apply String.ext
        have : (jsTrim newLabel).data.length = 0 := hl
        exact List.length_eq_zero.mp this
      simp [hne, h]
  refine ⟨by rw [renameNode, List.length_map], fun k n hk => ⟨fun hne => ?_, fun heq => ?_⟩⟩
  · rw [renameNode, List.getElem?_map, hk]
    simp [hne]
  · rw [renameNode, List.getElem?_map, hk]
    simp only [Option.map_some', heq, if_pos rfl, hsafe]
    simp

/-- Closed-instance witness for C6 at a two-node list: renaming `"a"` to
`"  New  "` trims to `"New"` and leaves the other node alone. -/
theorem claim_C6_witness :
    (([{ id := "a", label := "old", x := 1, y := 2 },
       { id := "b", label := "keep", x := 3, y := 4 }] : List NodeT)[0]? =
      some { id := "a", label := "old", x := 1, y := 2 }) ∧
    (renameNode [{ id := "a", label := "old", x := 1, y := 2 },
       { id := "b", label := "keep", x := 3, y := 4 }] "a" "  New  ")[0]? =
      some { id := "a", label := "New", x := 1, y := 2 } := by
  refine ⟨rfl, ?_⟩
  have h := (claim_C6 [{ id := "a", label := "old", x := 1, y := 2 },
    { id := "b", label := "keep", x := 3, y := 4 }] "a" "  New  ").2 0
    { id := "a", label := "old", x := 1, y := 2 } rfl
  have h2 := h.2 rfl
  rw [h2]
  decide

-- ---------------- Category tree lemmas ----------------

/-- Structural induction over `List Category` (nested inductive). -/
theorem catList_induction {P : List Category → Prop} (h0 : P [])
    (h1 : ∀ i n m ch rest, P ch → P rest → P (Category.mk i n m ch :: rest)) :
    ∀ l, P l
  | [] => h0
  | .mk i n m ch :: rest =>
    h1 i n m ch rest (catList_induction h0 h1 ch) (catList_induction h0 h1 rest)

theorem findCategoryById_eq_none_iff (l : List Category) (id : String) :
    findCategoryById l id = none ↔ id ∉ collectCategoryIds l := by
  induction l using catList_induction with
  | h0 => simp [findCategoryById, collectCategoryIds]
  | h1 i n m ch rest ihc ihr =>
    rw [findCategoryById, collectCategoryIds]
    by_cases hid : i = id
    · subst hid
      simp
    · rw [if_neg hid]
      cases hfc : findCategoryById ch id with
      | some d =>
        have : id ∈ collectCategoryIds ch := by
          by_contra hni
          simp [ihc.mpr hni] at hfc
        simp [this]
      | none =>
        have hch : id ∉ collectCategoryIds ch := ihc.mp hfc
        rw [ihr]
        simp [hch, Ne.symm hid]

theorem updateCategory_no_match (l : List Category) (id : String) (u : Category → Category)
    (h : id ∉ collectCategoryIds l) : updateCategory l id u = l := by
  induction l using catList_induction with
  | h0 => rw [updateCategory]
  | h1 i n m ch rest ihc ihr =>
    rw [collectCategoryIds] at h
    simp only [List.mem_cons, List.mem_append, not_or] at h
    rw [updateCategory, if_neg (fun he => h.1 he.symm), ihc h.2.1, ihr h.2.2]

theorem upsertMapInCategories_no_match (l : List Category) (catId : String) (doc : MindMapDoc)
    (h : catId ∉ collectCategoryIds l) : upsertMapInCategories l catId doc = l := by
  induction l using catList_induction with
  | h0 => rw [upsertMapInCategories]
  | h1 i n m ch rest ihc ihr =>
    rw [collectCategoryIds] at h
    simp only [List.mem_cons, List.mem_append, not_or] at h
    rw [upsertMapInCategories, if_neg (fun he => h.1 he.symm), ihr h.2.2]
    by_cases hche : ch.isEmpty
    · rw [if_pos hche]
    · rw [if_neg hche, ihc h.2.1]

/-- C9: lookups and mutations against an id absent from the category tree
degrade to a no-op: `findCategoryById` returns the `none` sentinel exactly
when no category bears the id, and in that case `updateCategory` — and with
it `deleteMapFromTree`, `renameMapInTree`, `addSubCategory` — as well as
`upsertMapInCategories` return the input tree unchanged (all functions are
total, so nothing is ever raised to the caller). -/
theorem claim_C9 (tree : List Category) (id : String) (u : Category → Category)
    (mapId newName newId : String) (now : Nat) (doc : MindMapDoc) :
    (findCategoryById tree id = none ↔ id ∉ collectCategoryIds tree) ∧
    (findCategoryById tree id = none →
      updateCategory tree id u = tree ∧
      deleteMapFromTree tree id mapId = tree ∧
      renameMapInTree tree id mapId newName now = tree ∧
      addSubCategory tree id newName newId = tree ∧
      upsertMapInCategories tree id doc = tree) := by
  refine ⟨findCategoryById_eq_none_iff tree id, fun hnone => ?_⟩
  have hno : id ∉ collectCategoryIds tree := (findCategoryById_eq_none_iff tree id).mp hnone
  exact ⟨updateCategory_no_match tree id u hno,
    updateCategory_no_match tree id _ hno,
    updateCategory_no_match tree id _ hno,
    updateCategory_no_match tree id _ hno,
    upsertMapInCategories_no_match tree id doc hno⟩

/-- Closed-instance witness for C9: a two-level tree with ids `a`, `b` and a
missing id `zz`. -/
theorem claim_C9_witness :
    (findCategoryById [Category.mk "a" "A" [] [Category.mk "b" "B" [] []]] "zz" = none) ∧
    (updateCategory [Category.mk "a" "A" [] [Category.mk "b" "B" [] []]] "zz"
        (fun c => Category.mk c.id "upd" c.maps c.children) =
      [Category.mk "a" "A" [] [Category.mk "b" "B" [] []]] ∧
    deleteMapFromTree [Category.mk "a" "A" [] [Category.mk "b" "B" [] []]] "zz" "m" =
      [Category.mk "a" "A" [] [Category.mk "b" "B" [] []]] ∧
    renameMapInTree [Category.mk "a" "A" [] [Category.mk "b" "B" [] []]] "zz" "m" "nm" 7 =
      [Category.mk "a" "A" [] [Category.mk "b" "B" [] []]] ∧
    addSubCategory [Category.mk "a" "A" [] [Category.mk "b" "B" [] []]] "zz" "nm" "id9" =
      [Category.mk "a" "A" [] [Category.mk "b" "B" [] []]] ∧
    upsertMapInCategories [Category.mk "a" "A" [] [Category.mk "b" "B" [] []]] "zz" exDocX =
      [Category.mk "a" "A" [] [Category.mk "b" "B" [] []]]) :=
  ⟨by simp [findCategoryById],
    (claim_C9 [Category.mk "a" "A" [] [Category.mk "b" "B" [] []]] "zz"
      (fun c => Category.mk c.id "upd" c.maps c.children) "m" "nm" "id9" 7 exDocX).2
      (by simp [findCategoryById])⟩

/-- `updateCategory` in map form: every top-level category is rewritten
independently; a match is passed to the updater (recursion stops there), a
non-match keeps its fields with rebuilt children. -/
theorem updateCategory_eq_map (l : List Category) (id : String) (u : Category → Category) :
    updateCategory l id u = l.map fun c =>
      if c.id = id then u c
      else .mk c.id c.name c.maps (updateCategory c.children id u) := by
  induction l with
  | nil => rw [updateCategory]; rfl
  | cons c rest ih =>
    cases c with
    | mk i n m ch =>
      rw [updateCategory, List.map_cons, ih]
      rfl

/-- A tree whose matching category (id `x`) has a child that also carries
the id `x`: the recursion stops at the outer match, so the inner matching
category is not passed through the updater. -/
def cexTree8 : List Category := [.mk "x" "outer" [] [.mk "x" "inner" [] []]]

/-- An updater whose effect is visible on every category it touches. -/
def bump8 : Category → Category := fun c => .mk c.id "CHANGED" c.maps c.children

/-- Counterexample to C8 as stated: in `cexTree8` both categories have the
target id `x`, yet after `updateCategory` the inner one still has its old
name — it was not passed through the updater, although the updater visibly
changes every category it is applied to. -/
theorem claim_C8_counterexample :
    updateCategory cexTree8 "x" bump8 =
      [Category.mk "x" "CHANGED" [] [Category.mk "x" "inner" [] []]] ∧
    bump8 (Category.mk "x" "inner" [] []) ≠ Category.mk "x" "inner" [] [] := by
  constructor
  · simp [cexTree8, bump8, updateCategory, Category.id, Category.name, Category.maps,
      Category.children]
  · intro h
    have hname := congrArg Category.name h
    simp only [bump8, Category.name] at hname
    exact absurd hname (by decide)

/-- C8 (amended): `updateCategory` passes through the updater exactly the
matching categories that are not nested inside another matching category —
recursion stops at a match, whose subtree is thereafter controlled solely by
the updater — and rebuilds every non-matching category with identical id,
name and maps and recursively processed children; a category whose subtree
contains no match is returned unchanged. -/
theorem claim_C8 (tree : List Category) (id : String) (u : Category → Category) :
    (updateCategory tree id u).length = tree.length ∧
    ∀ (k : Nat) (c : Category), tree[k]? = some c →
      (c.id = id → (updateCategory tree id u)[k]? = some (u c)) ∧
      (c.id ≠ id → (updateCategory tree id u)[k]? =
        some (.mk c.id c.name c.maps (updateCategory c.children id u))) ∧
      (id ∉ collectCategoryIds [c] → (updateCategory tree id u)[k]? = some c) := by
  rw [updateCategory_eq_map]
  refine ⟨List.length_map _ _, fun k c hk => ?_⟩
  rw [List.getElem?_map, hk, Option.map_some']
  refine ⟨fun hm => by rw [if_pos hm], fun hm => by rw [if_neg hm], fun hno => ?_⟩
  cases c with
  | mk i n m ch =>
    have hid : i ≠ id := by
      intro he
      exact hno (by rw [collectCategoryIds]; simp [he])
    have hch : id ∉ collectCategoryIds ch := by
      intro he
      apply hno
      rw [collectCategoryIds]
      simp [he]
    rw [if_neg (by simpa [Category.id] using hid)]
    simp only [Category.id, Category.name, Category.maps, Category.children]
    rw [updateCategory_no_match ch id u hch]

/-- Closed-instance witness for C8 (amended): in a two-category tree the
matching category is passed through the updater and the non-matching one is
returned unchanged. -/
theorem claim_C8_witness :
    (([Category.mk "x" "A" [] [], Category.mk "y" "B" [] []] : List Category)[0]? =
      some (Category.mk "x" "A" [] [])) ∧
    ((updateCategory [Category.mk "x" "A" [] [], Category.mk "y" "B" [] []] "x" bump8)[0]? =
      some (bump8 (Category.mk "x" "A" [] []))) ∧
    ((updateCategory [Category.mk "x" "A" [] [], Category.mk "y" "B" [] []] "x" bump8)[1]? =
      some (Category.mk "y" "B" [] [])) :=
  ⟨rfl,
    ((claim_C8 [Category.mk "x" "A" [] [], Category.mk "y" "B" [] []] "x" bump8).2 0
      (Category.mk "x" "A" [] []) rfl).1 rfl,
    ((claim_C8 [Category.mk "x" "A" [] [], Category.mk "y" "B" [] []] "x" bump8).2 1
      (Category.mk "y" "B" [] []) rfl).2.2 (by simp [collectCategoryIds])⟩

-- ---------------- upsertMapInCategories lemmas ----------------

theorem findNameIdx_eq_none (maps : List MindMapDoc) (nm : String)
    (h : ∀ m ∈ maps, m.name ≠ nm) : findNameIdx maps nm = none := by
  induction maps with
  | nil => rfl
  | cons m rest ih =>
    rw [findNameIdx, if_neg (h m (List.mem_cons_self m rest)),
      ih fun m' hm' => h m' (List.mem_cons_of_mem m hm')]
    rfl

theorem findNameIdx_eq_some (maps : List MindMapDoc) (nm : String) :
    ∀ (i : Nat) (m : MindMapDoc), maps[i]? = some m → m.name = nm →
      (∀ j, j < i → ∀ m', maps[j]? = some m' → m'.name ≠ nm) →
      findNameIdx maps nm = some i := by
  induction maps with
  | nil => intro i m hm; simp at hm
  | cons m0 rest ih =>
    intro i m hm hname hfirst
    match i with
    | 0 =>
      simp only [List.getElem?_cons_zero, Option.some.injEq] at hm
      rw [findNameIdx, if_pos (hm ▸ hname)]
    | k + 1 =>
      have h0 : m0.name ≠ nm :=
        hfirst 0 (Nat.succ_pos k) m0 (by simp)
      rw [findNameIdx, if_neg h0,
        ih k m (by simpa using hm) hname
          (fun j hj m' hm' => hfirst (j + 1) (by omega) m' (by simpa using hm'))]
      rfl

/-- `upsertMapInCategories` in map form, mirroring `updateCategory_eq_map`. -/
theorem upsertMapInCategories_eq_map (l : List Category) (catId : String) (doc : MindMapDoc) :
    upsertMapInCategories l catId doc = l.map fun c =>
      if c.id = catId then .mk c.id c.name (upsertDocList c.maps doc) c.children
      else .mk c.id c.name c.maps
        (if c.children.isEmpty then c.children
         else upsertMapInCategories c.children catId doc) := by
  induction l with
  | nil => rw [upsertMapInCategories]; rfl
  | cons c rest ih =>
    cases c with
    | mk i n m ch =>
      rw [upsertMapInCategories, List.map_cons, ih]
      rfl

/-- C3: in the matched category's map list, a map whose `name` equals
`doc.name` is replaced by `doc` at its original index (first such index;
length and all other positions unchanged); if no name matches, `doc` is
prepended.  Replacement is keyed on `name`, not `id`, and every
non-matching category keeps its map list. -/
theorem claim_C3 (cats : List Category) (catId : String) (doc : MindMapDoc) :
    (∀ maps : List MindMapDoc,
      ((∀ m ∈ maps, m.name ≠ doc.name) → upsertDocList maps doc = doc :: maps) ∧
      (∀ (i : Nat) (m : MindMapDoc), maps[i]? = some m → m.name = doc.name →
        (∀ j, j < i → ∀ m', maps[j]? = some m' → m'.name ≠ doc.name) →
        upsertDocList maps doc = maps.set i doc ∧
        (upsertDocList maps doc).length = maps.length ∧
        ∀ j, j ≠ i → (upsertDocList maps doc)[j]? = maps[j]?)) ∧
    ((upsertMapInCategories cats catId doc).length = cats.length ∧
     ∀ (k : Nat) (c : Category), cats[k]? = some c →
       (c.id = catId → (upsertMapInCategories cats catId doc)[k]? =
         some (.mk c.id c.name (upsertDocList c.maps doc) c.children)) ∧
       (c.id ≠ catId → (upsertMapInCategories cats catId doc)[k]? =
         some (.mk c.id c.name c.maps
           (if c.children.isEmpty then c.children
            else upsertMapInCategories c.children catId doc)))) := by
  constructor
  · intro maps
    constructor
    · intro hnone
      rw [upsertDocList, findNameIdx_eq_none maps doc.name hnone]
    · intro i m hm hname hfirst
      rw [upsertDocList, findNameIdx_eq_some maps doc.name i m hm hname hfirst]
      refine ⟨rfl, List.length_set .., fun j hj => List.getElem?_set_ne (Ne.symm hj)⟩
  · rw [upsertMapInCategories_eq_map]
    refine ⟨List.length_map _ _, fun k c hk => ?_⟩
    rw [List.getElem?_map, hk, Option.map_some']
    exact ⟨fun hm => by rw [if_pos hm], fun hm => by rw [if_neg hm]⟩

/-- Closed-instance witness for C3: upserting a doc named `X (2)` into a
category holding `X`, `X (2)` replaces the second map in place; the
sibling category is untouched. -/
theorem claim_C3_witness :
    (([exDocX, exDocX2] : List MindMapDoc)[1]? = some exDocX2) ∧
    upsertDocList [exDocX, exDocX2] { exDocX2 with id := "9", updatedAt := 5 } =
      [exDocX, { exDocX2 with id := "9", updatedAt := 5 }] ∧
    (upsertMapInCategories [Category.mk "c1" "C1" [exDocX, exDocX2] []] "c1"
        { exDocX2 with id := "9", updatedAt := 5 })[0]? =
      some (Category.mk "c1" "C1"
        (upsertDocList [exDocX, exDocX2] { exDocX2 with id := "9", updatedAt := 5 }) []) := by
  refine ⟨rfl, ?_, ?_⟩
  · have h := ((claim_C3 [Category.mk "c1" "C1" [exDocX, exDocX2] []] "c1"
      { exDocX2 with id := "9", updatedAt := 5 }).1 [exDocX, exDocX2]).2 1 exDocX2 rfl rfl
      (by
        intro j hj m' hm'
        match j with
        | 0 =>
          simp only [List.getElem?_cons_zero, Option.some.injEq] at hm'
          subst hm'
          decide)
    rw [h.1]
    rfl
  · exact (((claim_C3 [Category.mk "c1" "C1" [exDocX, exDocX2] []] "c1"
      { exDocX2 with id := "9", updatedAt := 5 }).2).2 0
      (Category.mk "c1" "C1" [exDocX, exDocX2] []) rfl).1 rfl

-- ---------------- renameMapInTree lemmas ----------------

/-- `findCategoryById` after `updateCategory` with an id-preserving updater:
the first depth-first match of the result is the updated first match of the
input. -/
theorem findCategoryById_updateCategory (l : List Category) (id : String)
    (u : Category → Category) (hu : ∀ c, c.id = id → (u c).id = id) :
    findCategoryById (updateCategory l id u) id = (findCategoryById l id).map u := by
  induction l using catList_induction with
  | h0 => simp [updateCategory, findCategoryById]
  | h1 i n m ch rest ihc ihr =>
    by_cases hi : i = id
    · subst hi
      rw [updateCategory, if_pos rfl, findCategoryById, if_pos rfl, Option.map_some']
      have hid : (u (Category.mk i n m ch)).id = i := hu _ rfl
      cases hc : u (Category.mk i n m ch) with
      | mk i' n' m' ch' =>
        rw [hc] at hid
        simp only [Category.id] at hid
        rw [findCategoryById, if_pos hid]
    · rw [updateCategory, if_neg hi, findCategoryById, if_neg hi, findCategoryById,
        if_neg hi, ihc]
      cases hfc : findCategoryById ch id with
      | some d => rfl
      | none => rw [Option.map_none', ihr]

/-- C5: renaming a map inside its category assigns it the name produced by
the uniqueness policy applied to the trimmed request (with the literal
`"(unnamed map)"` fallback) against the category's maps EXCLUDING the map
being renamed; the target map also gets the supplied timestamp, everything
else about the category — id, name, children, the other maps and all
positions — is unchanged. -/
theorem claim_C5 (tree : List Category) (catId mapId newName : String) (now : Nat)
    (c : Category) (hfind : findCategoryById tree catId = some c) :
    ∃ c', findCategoryById (renameMapInTree tree catId mapId newName now) catId = some c' ∧
      c'.id = c.id ∧ c'.name = c.name ∧ c'.children = c.children ∧
      c'.maps.length = c.maps.length ∧
      ∀ (j : Nat) (m : MindMapDoc), c.maps[j]? = some m →
        (m.id ≠ mapId → c'.maps[j]? = some m) ∧
        (m.id = mapId → c'.maps[j]? = some
          { m with
            name := uniqueMapName (c.maps.filter fun mm => mm.id ≠ mapId)
              (if jsTrim newName = "" then "(unnamed map)" else jsTrim newName),
            updatedAt := now }) := by
  have hu : ∀ d : Category, d.id = catId →
      (Category.mk d.id d.name
        (d.maps.map fun m => if m.id = mapId then
          { m with
            name := uniqueMapName (d.maps.filter fun mm => mm.id ≠ mapId) (renameBase newName),
            updatedAt := now }
          else m) d.children).id = catId := by
    intro d hd
    simpa [Category.id] using hd
  have hfu := findCategoryById_updateCategory tree catId _ hu
  rw [renameMapInTree]
  cases c with
  | mk i n mp ch =>
    refine ⟨_, by rw [hfu, hfind, Option.map_some'], ?_, ?_, ?_, ?_, ?_⟩
    · simp [Category.id]
    · simp [Category.name]
    · simp [Category.children]
    · simp [Category.maps]
    · intro j m hj
      simp only [Category.maps] at hj
      constructor
      · intro hne
        simp only [Category.maps, List.getElem?_map, hj, Option.map_some', if_neg hne]
      · intro heq
        simp only [Category.maps, List.getElem?_map, hj, Option.map_some', if_pos heq,
          renameBase]

/-- Concrete tree for the C5 witness: one category with maps `A` and `B`. -/
def tree5 : List Category := [.mk "c1" "C1" [⟨"1", "A", [], 0⟩, ⟨"2", "B", [], 0⟩] []]

/-- The category inside `tree5`. -/
def cat5 : Category := .mk "c1" "C1" [⟨"1", "A", [], 0⟩, ⟨"2", "B", [], 0⟩] []

/-- Closed-instance witness for C5: renaming map `2` to `"  A "` (which
trims to `"A"` and collides with the sibling map `A`). -/
theorem claim_C5_witness :
    findCategoryById tree5 "c1" = some cat5 ∧
    ∃ c', findCategoryById (renameMapInTree tree5 "c1" "2" "  A " 99) "c1" = some c' ∧
      c'.id = cat5.id ∧ c'.name = cat5.name ∧ c'.children = cat5.children ∧
      c'.maps.length = cat5.maps.length ∧
      ∀ (j : Nat) (m : MindMapDoc), cat5.maps[j]? = some m →
        (m.id ≠ "2" → c'.maps[j]? = some m) ∧
        (m.id = "2" → c'.maps[j]? = some
          { m with
            name := uniqueMapName (cat5.maps.filter fun mm => mm.id ≠ "2")
              (if jsTrim "  A " = "" then "(unnamed map)" else jsTrim "  A "),
            updatedAt := 99 }) :=
  ⟨by simp [tree5, cat5, findCategoryById],
    claim_C5 tree5 "c1" "2" "  A " 99 cat5 (by simp [tree5, cat5, findCategoryById])⟩

-- ---------------- buildChildrenMap lemmas ----------------

/-- Dangling-parent condition: a truthy `parentId` that matches no node id. -/
def danglingCond (nodes : List NodeT) (n : NodeT) : Bool :=
  match n.parentId with
  | none => false
  | some s => !(s = "") && !((nodes.map NodeT.id).contains s)

theorem isRootCond_eq (nodes : List NodeT) (n : NodeT) :
    isRootCond nodes n = (jsFalsy n.parentId || danglingCond nodes n) := by
  cases hp : n.parentId with
  | none => simp [isRootCond, jsFalsy, danglingCond, hp]
  | some s =>
    by_cases hs : s = ""
    · simp [isRootCond, jsFalsy, danglingCond, hp, hs]
    · simp [isRootCond, jsFalsy, danglingCond, hp, hs]

theorem danglingCond_not_falsy {nodes : List NodeT} {n : NodeT}
    (h : danglingCond nodes n = true) : jsFalsy n.parentId = false := by
  cases hp : n.parentId with
  | none => rw [danglingCond, hp] at h; exact absurd h (by simp)
  | some s =>
    rw [danglingCond, hp] at h
    simp only [Bool.and_eq_true, Bool.not_eq_true'] at h
    rw [jsFalsy, h.1]

theorem rootsLoop_eq (nodes : List NodeT) :
    ∀ (l acc : List Nat), l.Nodup →
      (∀ j ∈ l, jsFalsy (nodes.getD j dfltNode).parentId = true → j ∈ acc) →
      (∀ j ∈ l, danglingCond nodes (nodes.getD j dfltNode) = true → j ∉ acc) →
      rootsLoop nodes acc l =
        acc ++ l.filter fun j => danglingCond nodes (nodes.getD j dfltNode) := by
  intro l
  induction l with
  | nil => intro acc _ _ _; rw [rootsLoop, List.filter_nil, List.append_nil]
  | cons j rest ih =>
    intro acc hnd h1 h2
    rw [rootsLoop]
    by_cases hd : danglingCond nodes (nodes.getD j dfltNode) = true
    · have hroot : isRootCond nodes (nodes.getD j dfltNode) = true := by
        rw [isRootCond_eq, hd, Bool.or_true]
      have hnotmem : j ∉ acc := h2 j (List.mem_cons_self j rest) hd
      rw [if_pos ⟨hroot, fun hc => hnotmem (List.elem_iff.mp hc)⟩,
        ih (acc ++ [j]) (List.Nodup.of_cons hnd)
          (fun k hk hfk => List.mem_append_left [j] (h1 k (List.mem_cons_of_mem j hk) hfk))
          (fun k hk hdk hmem => by
            rcases List.mem_append.mp hmem with hka | hkj
            · exact h2 k (List.mem_cons_of_mem j hk) hdk hka
            · have : k = j := List.mem_singleton.mp hkj
              exact (List.nodup_cons.mp hnd).1 (this ▸ hk))]
      have hfc : List.filter (fun k => danglingCond nodes (nodes.getD k dfltNode)) (j :: rest)
          = j :: List.filter (fun k => danglingCond nodes (nodes.getD k dfltNode)) rest := by
        rw [List.filter_cons, if_pos hd]
      rw [hfc, List.append_assoc]
      rfl
    · have hfilter : List.filter (fun j => danglingCond nodes (nodes.getD j dfltNode))
          (j :: rest) = List.filter (fun j => danglingCond nodes (nodes.getD j dfltNode))
          rest := List.filter_cons_of_neg (by simpa using hd)
      rw [hfilter]
      by_cases hf : jsFalsy (nodes.getD j dfltNode).parentId = true
      · have hmem : j ∈ acc := h1 j (List.mem_cons_self j rest) hf
        rw [if_neg (fun hcond => hcond.2 (List.elem_iff.mpr hmem))]
        exact ih acc (List.Nodup.of_cons hnd)
          (fun k hk hfk => h1 k (List.mem_cons_of_mem j hk) hfk)
          (fun k hk hdk => h2 k (List.mem_cons_of_mem j hk) hdk)
      · have hroot : isRootCond nodes (nodes.getD j dfltNode) = false := by
          rw [isRootCond_eq, Bool.eq_false_iff] at *
          intro hor
          rcases Bool.or_eq_true_iff.mp hor with h | h
          · exact hf h
          · exact hd h
        rw [if_neg (fun hcond => by rw [hroot] at hcond; exact Bool.noConfusion hcond.1)]
        exact ih acc (List.Nodup.of_cons hnd)
          (fun k hk hfk => h1 k (List.mem_cons_of_mem j hk) hfk)
          (fun k hk hdk => h2 k (List.mem_cons_of_mem j hk) hdk)

/-- Closed form of the `roots` list: the falsy-parent nodes in input order,
then the dangling-parent nodes in input order. -/
theorem rootsIdx_eq (nodes : List NodeT) :
    rootsIdx nodes =
      ((List.range nodes.length).filter fun j =>
        jsFalsy (nodes.getD j dfltNode).parentId) ++
      ((List.range nodes.length).filter fun j =>
        danglingCond nodes (nodes.getD j dfltNode)) := by
  rw [rootsIdx]
  exact rootsLoop_eq nodes (List.range nodes.length) _ (List.nodup_range _)
    (fun j hj hf => List.mem_filter.mpr ⟨hj, hf⟩)
    (fun j hj hd hmem => by
      have := (List.mem_filter.mp hmem).2
      rw [danglingCond_not_falsy hd] at this
      exact Bool.noConfusion this)

theorem filter_range_eq_singleton :
    ∀ (n r : Nat), r < n → ∀ p : Nat → Bool, (∀ j, j < n → (p j = true ↔ j = r)) →
      (List.range n).filter p = [r] := by
  intro n
  induction n with
  | zero => omega
  | succ n ih =>
    intro r hr p hp
    rw [List.range_succ, List.filter_append]
    by_cases hrn : r = n
    · have hempty : (List.range n).filter p = [] := by
        rw [List.filter_eq_nil_iff]
        intro a ha hpa
        have := (hp a (by have := List.mem_range.mp ha; omega)).mp hpa
        have halt := List.mem_range.mp ha
        omega
      have hsing : List.filter p [n] = [n] := by
        rw [List.filter_cons, if_pos ((hp n (by omega)).mpr hrn.symm), List.filter_nil]
      rw [hempty, hsing, hrn]
      rfl
    · have hrlt : r < n := by omega
      have hmain := ih r hrlt p fun j hj => hp j (by omega)
      have hsing : List.filter p [n] = [] := by
        rw [List.filter_cons, if_neg, List.filter_nil]
        intro hpn
        exact hrn ((hp n (by omega)).mp hpn).symm
      rw [hmain, hsing, List.append_nil]

/-- Scenario of C4 with an *empty* root id: node 0 has `parentId = null`,
node 1 has `parentId` equal to node 0's id (the empty string). -/
def cex4 : List NodeT :=
  [{ id := "", label := "", x := 0, y := 0, parentId := none },
   { id := "a", label := "", x := 0, y := 0, parentId := some "" }]

/-- Counterexample to C4 as stated: in `cex4` exactly one node has
`parentId = null` and the only other node's `parentId` equals that node's
id (`""`), yet `buildChildrenMap` lists BOTH nodes as roots (an empty-string
`parentId` is falsy in JavaScript, `n.parentId || null`), and the children
list of the null-parent node is empty rather than of size `count - 1`. -/
theorem claim_C4_counterexample :
    cex4[0]? = some { id := "", label := "", x := 0, y := 0, parentId := none } ∧
    cex4[1]? = some { id := "a", label := "", x := 0, y := 0, parentId := some "" } ∧
    cex4.length = 2 ∧
    rootsIdx cex4 = [0, 1] ∧
    childIdx cex4 "" = [] := by
  refine ⟨rfl, rfl, rfl, by decide, by decide⟩

/-- C4 (amended): `buildChildrenMap` classifies as a root exactly the nodes
whose `parentId` is null/absent *or the empty string* (JavaScript falsiness)
together with the dangling-parent nodes, and no node is listed twice.  On a
sequence whose single null-parent node has a NONEMPTY id and every other
node points at it, it yields exactly that root and a children list of size
`count - 1` in input insertion order. -/
theorem claim_C4 (nodes : List NodeT) :
    (∀ j : Nat, j ∈ rootsIdx nodes ↔ j < nodes.length ∧
      (jsFalsy (nodes.getD j dfltNode).parentId = true ∨
        danglingCond nodes (nodes.getD j dfltNode) = true)) ∧
    (rootsIdx nodes).Nodup ∧
    (∀ (r : Nat) (rn : NodeT), nodes[r]? = some rn → rn.parentId = none → rn.id ≠ "" →
      (∀ (k : Nat) (nk : NodeT), k ≠ r → nodes[k]? = some nk → nk.parentId = some rn.id) →
      rootsIdx nodes = [r] ∧
      childIdx nodes rn.id = (List.range nodes.length).filter (fun k => k != r) ∧
      (childIdx nodes rn.id).length = nodes.length - 1) := by
  refine ⟨?_, ?_, ?_⟩
  · intro j
    rw [rootsIdx_eq, List.mem_append, List.mem_filter, List.mem_filter, List.mem_range]
    constructor
    · rintro (⟨h1, h2⟩ | ⟨h1, h2⟩)
      · exact ⟨h1, Or.inl h2⟩
      · exact ⟨h1, Or.inr h2⟩
    · rintro ⟨h1, h2 | h2⟩
      · exact Or.inl ⟨h1, h2⟩
      · exact Or.inr ⟨h1, h2⟩
  · rw [rootsIdx_eq]
    refine List.Nodup.append ((List.nodup_range _).filter _) ((List.nodup_range _).filter _)
      fun j hj1 hj2 => ?_
    have hf := (List.mem_filter.mp hj1).2
    have hd := (List.mem_filter.mp hj2).2
    rw [danglingCond_not_falsy hd] at hf
    exact Bool.noConfusion hf
  · intro r rn hr hnone hne hall
    have hrlt : r < nodes.length := by
      rcases List.getElem?_eq_some.mp hr with ⟨h, _⟩
      exact h
    have hgr : nodes.getD r dfltNode = rn := by
      rw [List.getD_eq_getElem?_getD, hr]
      rfl
    have hother : ∀ k, k < nodes.length → k ≠ r →
        (nodes.getD k dfltNode).parentId = some rn.id := by
      intro k hk hkr
      have hsome : nodes[k]? = some (nodes.getD k dfltNode) := by
        rw [List.getD_eq_getElem?_getD, List.getElem?_eq_getElem hk]
        rfl
      exact hall k (nodes.getD k dfltNode) hkr hsome
    have hfalsy : ((List.range nodes.length).filter fun j =>
        jsFalsy (nodes.getD j dfltNode).parentId) = [r] := by
      refine filter_range_eq_singleton nodes.length r hrlt _ fun j hj => ?_
      constructor
      · intro hpj
        by_contra hjr
        rw [hother j hj hjr] at hpj
        rw [jsFalsy] at hpj
        simp only [decide_eq_true_eq] at hpj
        exact hne hpj
      · intro hjr
        rw [hjr, hgr, hnone]
        rfl
    have hdang : ((List.range nodes.length).filter fun j =>
        danglingCond nodes (nodes.getD j dfltNode)) = [] := by
      rw [List.filter_eq_nil_iff]
      intro j hj hdj
      by_cases hjr : j = r
      · rw [hjr, hgr, danglingCond, hnone] at hdj
        exact Bool.noConfusion hdj
      · rw [danglingCond, hother j (List.mem_range.mp hj) hjr] at hdj
        simp only [Bool.and_eq_true, Bool.not_eq_true'] at hdj
        have hmem : rn.id ∈ nodes.map NodeT.id :=
          List.mem_map.mpr ⟨rn, List.getElem?_mem hr, rfl⟩
        have hc : (nodes.map NodeT.id).contains rn.id = true := List.elem_iff.mpr hmem
        exact Bool.noConfusion (hc.symm.trans hdj.2)
    have hchild : childIdx nodes rn.id =
        (List.range nodes.length).filter (fun k => k != r) := by
      rw [childIdx]
      refine List.filter_congr fun j hj => ?_
      by_cases hjr : j = r
      · rw [hjr, hgr]
        have : parentKey rn = none := by rw [parentKey, hnone]
        rw [this]
        simp
      · have : parentKey (nodes.getD j dfltNode) = some rn.id := by
          rw [parentKey, hother j (List.mem_range.mp hj) hjr]
          simp only [if_neg hne]
        rw [this]
        simp [hjr]
    refine ⟨?_, hchild, ?_⟩
    · rw [rootsIdx_eq, hfalsy, hdang, List.append_nil]
    · rw [hchild, ← List.Nodup.erase_eq_filter (List.nodup_range _) r,
        List.length_erase_of_mem (List.mem_range.mpr hrlt), List.length_range]

/-- Nodes of the three-node witness for C4. -/
def wit4r : NodeT := { id := "r", label := "", x := 0, y := 0, parentId := none }

def wit4a : NodeT := { id := "a", label := "", x := 0, y := 0, parentId := some "r" }

def wit4b : NodeT := { id := "b", label := "", x := 0, y := 0, parentId := some "r" }

/-- Three-node witness for C4: root `r`, children `a` and `b`. -/
def wit4 : List NodeT := [wit4r, wit4a, wit4b]

/-- Closed-instance witness for C4 (amended): `wit4` satisfies the scenario
hypotheses and has exactly one root with both other nodes as children. -/
theorem claim_C4_witness :
    (wit4[0]? = some wit4r) ∧
    rootsIdx wit4 = [0] ∧
    childIdx wit4 wit4r.id = (List.range wit4.length).filter (fun k => k != 0) ∧
    (childIdx wit4 wit4r.id).length = wit4.length - 1 := by
  refine ⟨rfl, ?_⟩
  have hall : ∀ (k : Nat) (nk : NodeT), k ≠ 0 → wit4[k]? = some nk →
      nk.parentId = some wit4r.id := by
    intro k nk hk hknk
    match k with
    | 0 => exact absurd rfl hk
    | 1 =>
      have h1 : some wit4a = some nk := hknk
      cases h1
      rfl
    | 2 =>
      have h2 : some wit4b = some nk := hknk
      cases h2
      rfl
    | k + 3 => exact Option.noConfusion hknk
  exact (claim_C4 wit4).2.2 0 wit4r rfl rfl (by decide) hall

-- ---------------- autoLayout: centring (C2) ----------------

theorem foldl_min_map_sub (c : ℚ) :
    ∀ (xs : List ℚ) (a : ℚ), (xs.map (fun v => v - c)).foldl min (a - c) = xs.foldl min a - c := by
  intro xs
  induction xs with
  | nil => intro a; rfl
  | cons x xs ih =>
    intro a
    rw [List.map_cons, List.foldl_cons, List.foldl_cons, min_sub_sub_right, ih]

theorem foldl_max_map_sub (c : ℚ) :
    ∀ (xs : List ℚ) (a : ℚ), (xs.map (fun v => v - c)).foldl max (a - c) = xs.foldl max a - c := by
  intro xs
  induction xs with
  | nil => intro a; rfl
  | cons x xs ih =>
    intro a
    rw [List.map_cons, List.foldl_cons, List.foldl_cons, max_sub_sub_right, ih]

theorem listMin_map_sub (c : ℚ) (xs : List ℚ) (h : xs ≠ []) :
    listMin (xs.map (fun v => v - c)) = listMin xs - c := by
  cases xs with
  | nil => exact absurd rfl h
  | cons x rest => rw [List.map_cons, listMin, listMin, foldl_min_map_sub]

theorem listMax_map_sub (c : ℚ) (xs : List ℚ) (h : xs ≠ []) :
    listMax (xs.map (fun v => v - c)) = listMax xs - c := by
  cases xs with
  | nil => exact absurd rfl h
  | cons x rest => rw [List.map_cons, listMax, listMax, foldl_max_map_sub]

theorem applyPositions_length (nodes : List NodeT) (st : LayoutSt) :
    (applyPositions nodes st).length = nodes.length := by
  rw [applyPositions, List.length_map, List.length_range]

/-- C2: whenever the source recursion terminates (`autoLayout` returns a
result), every node receives a coordinate pair — in this exact-rational
model every coordinate is a finite rational by construction — and for a
non-empty input the bounding-box midpoint of the output positions is
exactly the origin. -/
theorem claim_C2 (nodes out : List NodeT) (h : autoLayout nodes = some out) :
    out.length = nodes.length ∧
    (nodes ≠ [] →
      (listMin (out.map NodeT.x) + listMax (out.map NodeT.x)) / 2 = 0 ∧
      (listMin (out.map NodeT.y) + listMax (out.map NodeT.y)) / 2 = 0) := by
  rw [autoLayout] at h
  cases hrun : layoutRun nodes with
  | none => rw [hrun] at h; exact Option.noConfusion h
  | some stps =>
    rw [hrun] at h
    obtain ⟨st, ps⟩ := stps
    simp only [Option.some.injEq] at h
    subst h
    simp only [autoLayoutFinish]
    constructor
    · rw [List.length_map, applyPositions_length]
    · intro hne
      have hlen : (applyPositions nodes st).length = nodes.length :=
        applyPositions_length nodes st
      have hpl : applyPositions nodes st ≠ [] := by
        intro hnil
        rw [hnil] at hlen
        exact hne (List.length_eq_zero.mp hlen.symm)
      have hxs : (applyPositions nodes st).map NodeT.x ≠ [] := by
        intro hnil
        exact hpl (List.map_eq_nil_iff.mp hnil)
      have hys : (applyPositions nodes st).map NodeT.y ≠ [] := by
        intro hnil
        exact hpl (List.map_eq_nil_iff.mp hnil)
      constructor
      · rw [List.map_map]
        have hx : (NodeT.x ∘ fun n => { n with
            x := n.x - (listMin ((applyPositions nodes st).map NodeT.x) +
              listMax ((applyPositions nodes st).map NodeT.x)) / 2,
            y := n.y - (listMin ((applyPositions nodes st).map NodeT.y) +
              listMax ((applyPositions nodes st).map NodeT.y)) / 2 }) =
            fun n => NodeT.x n - (listMin ((applyPositions nodes st).map NodeT.x) +
              listMax ((applyPositions nodes st).map NodeT.x)) / 2 := rfl
        rw [hx, show ((applyPositions nodes st).map fun n => NodeT.x n -
            (listMin ((applyPositions nodes st).map NodeT.x) +
              listMax ((applyPositions nodes st).map NodeT.x)) / 2) =
          (((applyPositions nodes st).map NodeT.x).map fun v => v -
            (listMin ((applyPositions nodes st).map NodeT.x) +
              listMax ((applyPositions nodes st).map NodeT.x)) / 2) from
          by rw [List.map_map]; rfl,
          listMin_map_sub _ _ hxs, listMax_map_sub _ _ hxs]
        ring
      · rw [List.map_map]
        have hy : (NodeT.y ∘ fun n => { n with
            x := n.x - (listMin ((applyPositions nodes st).map NodeT.x) +
              listMax ((applyPositions nodes st).map NodeT.x)) / 2,
            y := n.y - (listMin ((applyPositions nodes st).map NodeT.y) +
              listMax ((applyPositions nodes st).map NodeT.y)) / 2 }) =
            fun n => NodeT.y n - (listMin ((applyPositions nodes st).map NodeT.y) +
              listMax ((applyPositions nodes st).map NodeT.y)) / 2 := rfl
        rw [hy, show ((applyPositions nodes st).map fun n => NodeT.y n -
            (listMin ((applyPositions nodes st).map NodeT.y) +
              listMax ((applyPositions nodes st).map NodeT.y)) / 2) =
          (((applyPositions nodes st).map NodeT.y).map fun v => v -
            (listMin ((applyPositions nodes st).map NodeT.y) +
              listMax ((applyPositions nodes st).map NodeT.y)) / 2) from
          by rw [List.map_map]; rfl,
          listMin_map_sub _ _ hys, listMax_map_sub _ _ hys]
        ring

/-- The layout `autoLayout` computes for `wit4` (root centred above its two
children). -/
def lay4out : List NodeT :=
  [{ wit4r with x := 0, y := -45 }, { wit4a with x := -60, y := 45 },
   { wit4b with x := 60, y := 45 }]

/-- Closed-instance witness for C2 on the three-node tree `wit4`. -/
theorem claim_C2_witness :
    autoLayout wit4 = some lay4out ∧
    (lay4out.length = wit4.length ∧
      (wit4 ≠ [] →
        (listMin (lay4out.map NodeT.x) + listMax (lay4out.map NodeT.x)) / 2 = 0 ∧
        (listMin (lay4out.map NodeT.y) + listMax (lay4out.map NodeT.y)) / 2 = 0)) :=
  ⟨by with_unfolding_all rfl, claim_C2 wit4 lay4out (by with_unfolding_all rfl)⟩

-- ---------------- autoLayout: idempotence machinery (C7) ----------------

theorem nodeT_update_absorb (n : NodeT) (x y x' y' : ℚ) :
    ({ { n with x := x, y := y } with x := x', y := y' } : NodeT) =
      { n with x := x', y := y' } := by
  cases n
  rfl

theorem nodeT_update_self (n : NodeT) : ({ n with x := n.x, y := n.y } : NodeT) = n := by
  cases n
  rfl

/-- Every node of an `autoLayout` output differs from the corresponding
input node only in its coordinates. -/
theorem autoLayout_struct (nodes out : List NodeT) (h : autoLayout nodes = some out) :
    out.length = nodes.length ∧
    ∀ i : Nat, ∃ xv yv,
      out.getD i dfltNode = { nodes.getD i dfltNode with x := xv, y := yv } := by
  rw [autoLayout] at h
  cases hrun : layoutRun nodes with
  | none => rw [hrun] at h; exact Option.noConfusion h
  | some stps =>
    rw [hrun] at h
    obtain ⟨st, ps⟩ := stps
    simp only [Option.some.injEq] at h
    subst h
    simp only [autoLayoutFinish]
    refine ⟨by rw [List.length_map, applyPositions_length], fun i => ?_⟩
    by_cases hi : i < nodes.length
    · have hlen2 : i < (applyPositions nodes st).length := by
        rw [applyPositions_length]; exact hi
      have hmap : ((applyPositions nodes st).map fun n =>
          { n with
            x := n.x - (listMin ((applyPositions nodes st).map NodeT.x) +
              listMax ((applyPositions nodes st).map NodeT.x)) / 2,
            y := n.y - (listMin ((applyPositions nodes st).map NodeT.y) +
              listMax ((applyPositions nodes st).map NodeT.y)) / 2 }).getD i dfltNode =
          (fun n : NodeT =>
            { n with
              x := n.x - (listMin ((applyPositions nodes st).map NodeT.x) +
                listMax ((applyPositions nodes st).map NodeT.x)) / 2,
              y := n.y - (listMin ((applyPositions nodes st).map NodeT.y) +
                listMax ((applyPositions nodes st).map NodeT.y)) / 2 })
            ((applyPositions nodes st).getD i dfltNode) := by
        rw [List.getD_eq_getElem?_getD, List.getD_eq_getElem?_getD, List.getElem?_map,
          List.getElem?_eq_getElem hlen2]
        rfl
      have happ : (applyPositions nodes st).getD i dfltNode =
          match lookupPos st.pos i with
          | some (xv, yv) => { nodes.getD i dfltNode with x := xv, y := yv }
          | none => nodes.getD i dfltNode := by
        rw [applyPositions, List.getD_eq_getElem?_getD, List.getElem?_map,
          List.getElem?_range hi]
        rfl
      rw [hmap, happ]
      cases hl : lookupPos st.pos i with
      | some p =>
        obtain ⟨xv, yv⟩ := p
        exact ⟨_, _, nodeT_update_absorb (nodes.getD i dfltNode) xv yv _ _⟩
      | none => exact ⟨_, _, rfl⟩
    · have h1 : ((applyPositions nodes st).map fun n =>
          { n with
            x := n.x - (listMin ((applyPositions nodes st).map NodeT.x) +
              listMax ((applyPositions nodes st).map NodeT.x)) / 2,
            y := n.y - (listMin ((applyPositions nodes st).map NodeT.y) +
              listMax ((applyPositions nodes st).map NodeT.y)) / 2 }).getD i dfltNode =
          dfltNode := by
        rw [List.getD_eq_getElem?_getD, List.getElem?_eq_none]
        · rfl
        · rw [List.length_map, applyPositions_length]; omega
      have h2 : nodes.getD i dfltNode = dfltNode := by
        rw [List.getD_eq_getElem?_getD, List.getElem?_eq_none (by omega)]
        rfl
      refine ⟨dfltNode.x, dfltNode.y, ?_⟩
      rw [h1, h2, nodeT_update_self]

theorem childIdx_congr (n1 n2 : List NodeT) (hlen : n1.length = n2.length)
    (hpk : ∀ i : Nat, (n1.getD i dfltNode).parentId = (n2.getD i dfltNode).parentId) :
    ∀ k, childIdx n1 k = childIdx n2 k := by
  intro k
  rw [childIdx, childIdx, hlen]
  exact List.filter_congr fun j _ => by rw [parentKey, parentKey, hpk j]

theorem mapId_congr (n1 n2 : List NodeT) (hlen : n1.length = n2.length)
    (hid : ∀ i : Nat, (n1.getD i dfltNode).id = (n2.getD i dfltNode).id) :
    n1.map NodeT.id = n2.map NodeT.id := by
  apply List.ext_getElem?
  intro i
  rw [List.getElem?_map, List.getElem?_map]
  by_cases hi : i < n1.length
  · have hi2 : i < n2.length := hlen ▸ hi
    rw [List.getElem?_eq_getElem hi, List.getElem?_eq_getElem hi2]
    have h1 : n1.getD i dfltNode = n1[i] := by
      rw [List.getD_eq_getElem?_getD, List.getElem?_eq_getElem hi]; rfl
    have h2 : n2.getD i dfltNode = n2[i] := by
      rw [List.getD_eq_getElem?_getD, List.getElem?_eq_getElem hi2]; rfl
    have := hid i
    rw [h1, h2] at this
    rw [Option.map_some', Option.map_some', this]
  · rw [List.getElem?_eq_none (by omega), List.getElem?_eq_none (by omega)]

theorem rootsLoop_congr (n1 n2 : List NodeT)
    (hcond : ∀ j : Nat, isRootCond n1 (n1.getD j dfltNode) = isRootCond n2 (n2.getD j dfltNode)) :
    ∀ (l acc : List Nat), rootsLoop n1 acc l = rootsLoop n2 acc l := by
  intro l
  induction l with
  | nil => intro acc; rw [rootsLoop, rootsLoop]
  | cons j rest ih =>
    intro acc
    rw [rootsLoop, rootsLoop, hcond j]
    by_cases hc : isRootCond n2 (n2.getD j dfltNode) = true ∧ ¬ acc.contains j = true
    · rw [if_pos hc, if_pos hc, ih]
    · rw [if_neg hc, if_neg hc, ih]

theorem rootsIdx_congr (n1 n2 : List NodeT) (hlen : n1.length = n2.length)
    (hid : ∀ i : Nat, (n1.getD i dfltNode).id = (n2.getD i dfltNode).id)
    (hpk : ∀ i : Nat, (n1.getD i dfltNode).parentId = (n2.getD i dfltNode).parentId) :
    rootsIdx n1 = rootsIdx n2 := by
  have hcond : ∀ j : Nat,
      isRootCond n1 (n1.getD j dfltNode) = isRootCond n2 (n2.getD j dfltNode) := by
    intro j
    rw [isRootCond, isRootCond, hpk j, mapId_congr n1 n2 hlen hid]
  rw [rootsIdx, rootsIdx, hlen, rootsLoop_congr n1 n2 hcond]
  have hfalsy : ((List.range n2.length).filter fun j =>
      jsFalsy (n1.getD j dfltNode).parentId) = (List.range n2.length).filter fun j =>
      jsFalsy (n2.getD j dfltNode).parentId :=
    List.filter_congr fun j _ => by rw [hpk j]
  rw [hfalsy]

theorem placeChildren_congr (f g : Nat → Nat → LayoutSt → Option (LayoutSt × ℚ × ℚ))
    (hfg : ∀ j d st, f j d st = g j d st) :
    ∀ (l : List Nat) (d : Nat) (st : LayoutSt), placeChildren f l d st = placeChildren g l d st := by
  intro l
  induction l with
  | nil => intro d st; rw [placeChildren, placeChildren]
  | cons j rest ih =>
    intro d st
    rw [placeChildren, placeChildren, hfg j d st]
    cases g j d st with
    | none => rfl
    | some stp =>
      obtain ⟨st', p⟩ := stp
      simp only [ih]

theorem place_congr (n1 n2 : List NodeT)
    (hid : ∀ i : Nat, (n1.getD i dfltNode).id = (n2.getD i dfltNode).id)
    (hch : ∀ k, childIdx n1 k = childIdx n2 k) :
    ∀ (fuel i d : Nat) (st : LayoutSt), place n1 fuel i d st = place n2 fuel i d st := by
  intro fuel
  induction fuel with
  | zero => intro i d st; rw [place, place]
  | succ fuel ih =>
    intro i d st
    rw [place, place, hid i, hch ((n2.getD i dfltNode).id)]
    by_cases hc : (childIdx n2 (n2.getD i dfltNode).id).isEmpty = true
    · rw [if_pos hc, if_pos hc]
    · rw [if_neg hc, if_neg hc,
        placeChildren_congr (place n1 fuel) (place n2 fuel) (fun j d st => ih j d st)]

/-- C7 (amended): `autoLayout` is idempotent on every node sequence in
which the placement pass reaches every node (`placedAll`), i.e. whenever
every node is reachable from a root through the parent-to-children index;
placement depends only on the ids, parentIds and order of the nodes, which
`autoLayout` does not change, and under `placedAll` no stale input
coordinate survives into the translation step. -/
theorem claim_C7 (nodes out : List NodeT) (hall : placedAll nodes = true)
    (h : autoLayout nodes = some out) : autoLayout out = some out := by
  obtain ⟨hlen, hstruct⟩ := autoLayout_struct nodes out h
  have hid : ∀ i : Nat, (out.getD i dfltNode).id = (nodes.getD i dfltNode).id := by
    intro i
    obtain ⟨xv, yv, he⟩ := hstruct i
    rw [he]
  have hpid : ∀ i : Nat,
      (out.getD i dfltNode).parentId = (nodes.getD i dfltNode).parentId := by
    intro i
    obtain ⟨xv, yv, he⟩ := hstruct i
    rw [he]
  have hch : ∀ k, childIdx out k = childIdx nodes k := childIdx_congr out nodes hlen hpid
  have hplace : ∀ (fuel i d : Nat) (st : LayoutSt),
      place out fuel i d st = place nodes fuel i d st := place_congr out nodes hid hch
  have hroots : rootsIdx out = rootsIdx nodes := rootsIdx_congr out nodes hlen hid hpid
  have hrun : layoutRun out = layoutRun nodes := by
    rw [layoutRun, layoutRun, hlen, hroots,
      placeChildren_congr _ _ (fun j d st => hplace _ j d st)]
  rw [autoLayout] at h
  cases hrunN : layoutRun nodes with
  | none => rw [hrunN] at h; exact Option.noConfusion h
  | some stps =>
    obtain ⟨st, ps⟩ := stps
    rw [hrunN] at h
    rw [placedAll, hrunN, List.all_eq_true] at hall
    have hsome : ∀ i : Nat, i < nodes.length → (lookupPos st.pos i).isSome = true := by
      intro i hi
      exact hall i (List.mem_range.mpr hi)
    have happly : applyPositions out st = applyPositions nodes st := by
      rw [applyPositions, applyPositions, hlen]
      refine List.map_congr_left fun i hi => ?_
      have hi' : i < nodes.length := List.mem_range.mp hi
      show (match lookupPos st.pos i with
        | some (x, y) => { out.getD i dfltNode with x := x, y := y }
        | none => out.getD i dfltNode) =
        (match lookupPos st.pos i with
        | some (x, y) => { nodes.getD i dfltNode with x := x, y := y }
        | none => nodes.getD i dfltNode)
      cases hlk : lookupPos st.pos i with
      | none =>
        have := hsome i hi'
        rw [hlk] at this
        exact Bool.noConfusion this
      | some p =>
        obtain ⟨xv, yv⟩ := p
        obtain ⟨xo, yo, he⟩ := hstruct i
        show ({ out.getD i dfltNode with x := xv, y := yv } : NodeT) =
          { nodes.getD i dfltNode with x := xv, y := yv }
        rw [he]
    have hout : autoLayout out = some (autoLayoutFinish out st) := by
      rw [autoLayout, hrun, hrunN]
    have hnodes2 : autoLayoutFinish nodes st = out := by
      have h' : some (autoLayoutFinish nodes st) = some out := h
      simpa using h'
    have hfin : autoLayoutFinish out st = autoLayoutFinish nodes st := by
      rw [autoLayoutFinish, autoLayoutFinish, happly]
    rw [hout, hfin, hnodes2]

/-- Nodes of the C7 counterexample: a lone root plus a two-node parent
cycle (`a ↔ b`) that is unreachable from any root and so is never placed —
its stale coordinates feed the translation step. -/
def cyc7r : NodeT := { id := "r", label := "", x := 0, y := 0, parentId := none }

def cyc7a : NodeT := { id := "a", label := "", x := 100, y := 0, parentId := some "b" }

def cyc7b : NodeT := { id := "b", label := "", x := 200, y := 0, parentId := some "a" }

def cyc7 : List NodeT := [cyc7r, cyc7a, cyc7b]

def cyc7out1 : List NodeT :=
  [{ cyc7r with x := -100 }, { cyc7a with x := 0 }, { cyc7b with x := 100 }]

def cyc7out2 : List NodeT :=
  [{ cyc7r with x := -50 }, { cyc7a with x := -50 }, { cyc7b with x := 50 }]

/-- Counterexample to C7 as stated: on `cyc7` (same ids, parentIds and
order after one run) a second `autoLayout` yields different positions —
the unplaced cycle nodes keep their (translated) input coordinates, which
shift the bounding box. -/
theorem claim_C7_counterexample :
    autoLayout cyc7 = some cyc7out1 ∧
    autoLayout cyc7out1 = some cyc7out2 ∧
    cyc7out1 ≠ cyc7out2 := by
  refine ⟨by with_unfolding_all rfl, by with_unfolding_all rfl, fun hcontra => ?_⟩
  have hx := congrArg (fun l => (l.getD 0 dfltNode).x) hcontra
  norm_num [cyc7out1, cyc7out2, cyc7r, dfltNode] at hx

/-- Closed-instance witness for C7 (amended) on the fully placed tree
`wit4`. -/
theorem claim_C7_witness :
    placedAll wit4 = true ∧ autoLayout wit4 = some lay4out ∧
      autoLayout lay4out = some lay4out :=
  ⟨by with_unfolding_all rfl, by with_unfolding_all rfl,
    claim_C7 wit4 lay4out (by with_unfolding_all rfl) (by with_unfolding_all rfl)⟩

-- ---------------- autoLayout: termination (C10) ----------------

theorem parentKey_some_iff {n : NodeT} {s : String} :
    parentKey n = some s ↔ n.parentId = some s ∧ s ≠ "" := by
  cases hp : n.parentId with
  | none => simp [parentKey, hp]
  | some t =>
    simp only [parentKey, hp, Option.some.injEq]
    by_cases ht : t = ""
    · rw [if_pos ht]
      constructor
      · intro h; exact Option.noConfusion h
      · rintro ⟨he, hne⟩
        exact absurd (he ▸ ht) hne
    · rw [if_neg ht, Option.some.injEq]
      constructor
      · intro h; exact ⟨h, fun hc => ht (h.trans hc)⟩
      · rintro ⟨he, _⟩; exact he

theorem mem_childIdx {nodes : List NodeT} {k : String} {j : Nat} :
    j ∈ childIdx nodes k ↔
      j < nodes.length ∧ parentKey (nodes.getD j dfltNode) = some k := by
  rw [childIdx, List.mem_filter, List.mem_range]
  simp

theorem getD_id_inj (nodes : List NodeT) (hid : (nodes.map NodeT.id).Nodup) {i j : Nat}
    (hi : i < nodes.length) (hj : j < nodes.length)
    (h : (nodes.getD i dfltNode).id = (nodes.getD j dfltNode).id) : i = j := by
  have hi' : i < (nodes.map NodeT.id).length := by rw [List.length_map]; exact hi
  have hj' : j < (nodes.map NodeT.id).length := by rw [List.length_map]; exact hj
  have h1 : (nodes.map NodeT.id)[i] = (nodes.getD i dfltNode).id := by
    rw [List.getElem_map, List.getD_eq_getElem?_getD, List.getElem?_eq_getElem hi]
    rfl
  have h2 : (nodes.map NodeT.id)[j] = (nodes.getD j dfltNode).id := by
    rw [List.getElem_map, List.getD_eq_getElem?_getD, List.getElem?_eq_getElem hj]
    rfl
  exact (List.Nodup.getElem_inj_iff hid).mp (by rw [h1, h2, h])

theorem mem_rootsIdx_iff {nodes : List NodeT} {j : Nat} :
    j ∈ rootsIdx nodes ↔ j < nodes.length ∧
      (jsFalsy (nodes.getD j dfltNode).parentId = true ∨
        danglingCond nodes (nodes.getD j dfltNode) = true) := by
  rw [rootsIdx_eq, List.mem_append, List.mem_filter, List.mem_filter, List.mem_range]
  constructor
  · rintro (⟨h1, h2⟩ | ⟨h1, h2⟩)
    · exact ⟨h1, Or.inl h2⟩
    · exact ⟨h1, Or.inr h2⟩
  · rintro ⟨h1, h2 | h2⟩
    · exact Or.inl ⟨h1, h2⟩
    · exact Or.inr ⟨h1, h2⟩

/-- A node index is a child of another through the parent-to-children
index. -/
def childOfIdx (nodes : List NodeT) (x z : Nat) : Prop :=
  x ∈ childIdx nodes (nodes.getD z dfltNode).id

/-- The call stacks `place` can actually reach: a root, extended downward
through the parent-to-children index (top of stack first). -/
inductive ValidStack (nodes : List NodeT) : List Nat → Prop where
  | root (i : Nat) (h : i ∈ rootsIdx nodes) : ValidStack nodes [i]
  | child (j i : Nat) (s : List Nat) (hs : ValidStack nodes (i :: s))
      (hj : j ∈ childIdx nodes (nodes.getD i dfltNode).id) : ValidStack nodes (j :: i :: s)

theorem validStack_mem_lt (nodes : List NodeT) :
    ∀ l, ValidStack nodes l → ∀ x ∈ l, x < nodes.length := by
  intro l hl
  induction hl with
  | root i h =>
    intro x hx
    rw [List.mem_singleton.mp hx]
    exact (mem_rootsIdx_iff.mp h).1
  | child j i s hs hj ih =>
    intro x hx
    rcases List.mem_cons.mp hx with rfl | hx2
    · exact (mem_childIdx.mp hj).1
    · exact ih x hx2

theorem childOfIdx_lt {nodes : List NodeT} {x z : Nat} (h : childOfIdx nodes x z) :
    z < nodes.length := by
  obtain ⟨hx, hpk⟩ := mem_childIdx.mp h
  by_contra hz
  have hd : nodes.getD z dfltNode = dfltNode := by
    rw [List.getD_eq_getElem?_getD, List.getElem?_eq_none (by omega)]
    rfl
  have := (parentKey_some_iff.mp hpk).2
  rw [hd] at this
  exact this rfl

/-- Main invariant (needs distinct ids): a valid stack never revisits an
index, and any stack member's parent through the children index is exactly
its successor on the stack. -/
theorem validStack_invariant (nodes : List NodeT) (hid : (nodes.map NodeT.id).Nodup) :
    ∀ l, ValidStack nodes l → l.Nodup ∧
      ∀ x z, x ∈ l → childOfIdx nodes x z → ∃ u v, l = u ++ x :: z :: v := by
  intro l hl
  induction hl with
  | root i h =>
    refine ⟨List.nodup_singleton i, fun x z hx hcxz => ?_⟩
    rw [List.mem_singleton.mp hx] at hcxz
    obtain ⟨hilt, hpk⟩ := mem_childIdx.mp hcxz
    obtain ⟨hpid, hne⟩ := parentKey_some_iff.mp hpk
    rcases (mem_rootsIdx_iff.mp h).2 with hf | hd
    · rw [hpid] at hf
      simp only [jsFalsy, decide_eq_true_eq] at hf
      exact absurd hf hne
    · rw [danglingCond, hpid] at hd
      simp only [Bool.and_eq_true, Bool.not_eq_true'] at hd
      have hzlt : z < nodes.length := childOfIdx_lt hcxz
      have hmem : (nodes.getD z dfltNode).id ∈ nodes.map NodeT.id := by
        refine List.mem_map.mpr ⟨nodes.getD z dfltNode, ?_, rfl⟩
        rw [List.getD_eq_getElem?_getD, List.getElem?_eq_getElem hzlt]
        exact List.getElem_mem hzlt
      have hc := List.elem_iff.mpr hmem
      exact Bool.noConfusion (hc.symm.trans hd.2)
  | child j i s hs hj ih =>
    obtain ⟨hnd, hcons⟩ := ih
    have hcij : childOfIdx nodes j i := hj
    have hjn : j ∉ i :: s := by
      intro hmem
      obtain ⟨u, v, he⟩ := hcons j i hmem hcij
      cases u with
      | nil =>
        simp only [List.nil_append] at he
        injection he with h1 h2
        rw [h2] at hnd
        exact (List.nodup_cons.mp hnd).1 (List.mem_cons_self i v)
      | cons a u' =>
        simp only [List.cons_append] at he
        injection he with h1 h2
        apply (List.nodup_cons.mp hnd).1
        rw [h2]
        exact List.mem_append_right u' (List.mem_cons_of_mem j (List.mem_cons_self i v))
    refine ⟨List.nodup_cons.mpr ⟨hjn, hnd⟩, fun x z hx hcxz => ?_⟩
    rcases List.mem_cons.mp hx with rfl | hx2
    · obtain ⟨hxlt, hpk⟩ := mem_childIdx.mp hcxz
      obtain ⟨hxlt', hpk'⟩ := mem_childIdx.mp hcij
      have hzlt : z < nodes.length := childOfIdx_lt hcxz
      have hilt : i < nodes.length :=
        validStack_mem_lt nodes _ hs i (List.mem_cons_self i s)
      have hzi : z = i := by
        apply getD_id_inj nodes hid hzlt hilt
        exact Option.some_injective _ (hpk.symm.trans hpk')
      rw [hzi]
      exact ⟨[], s, rfl⟩
    · obtain ⟨u, v, he⟩ := hcons x z hx2 hcxz
      exact ⟨j :: u, v, by rw [List.cons_append, ← he]⟩

theorem placeChildren_isSome (f : Nat → Nat → LayoutSt → Option (LayoutSt × ℚ × ℚ))
    (l : List Nat) (hall : ∀ j ∈ l, ∀ (d : Nat) (st : LayoutSt), (f j d st).isSome = true) :
    ∀ (d : Nat) (st : LayoutSt), (placeChildren f l d st).isSome = true := by
  induction l with
  | nil => intro d st; rw [placeChildren]; rfl
  | cons j rest ih =>
    intro d st
    rw [placeChildren]
    cases hf : f j d st with
    | none =>
      have := hall j (List.mem_cons_self j rest) d st
      rw [hf] at this
      exact Bool.noConfusion this
    | some stp =>
      obtain ⟨st', p⟩ := stp
      have hrest := ih (fun k hk => hall k (List.mem_cons_of_mem j hk)) d st'
      show (match placeChildren f rest d st' with
        | none => none
        | some (st'', ps) => some (st'', p :: ps)).isSome = true
      cases hpc : placeChildren f rest d st' with
      | none =>
        rw [hpc] at hrest
        exact Bool.noConfusion hrest
      | some stps =>
        obtain ⟨st'', ps⟩ := stps
        rfl

/-- Fuel sufficiency: on a valid stack whose remaining fuel covers the
indices not yet on the stack, `place` never exhausts its fuel. -/
theorem place_isSome (nodes : List NodeT) (hid : (nodes.map NodeT.id).Nodup) :
    ∀ (fuel i : Nat) (s : List Nat) (d : Nat) (st : LayoutSt),
      ValidStack nodes (i :: s) → nodes.length ≤ fuel + s.length →
      (place nodes fuel i d st).isSome = true := by
  intro fuel
  induction fuel with
  | zero =>
    intro i s d st hvs hle
    have hnd := (validStack_invariant nodes hid _ hvs).1
    have hsub : (i :: s) ⊆ List.range nodes.length := fun x hx =>
      List.mem_range.mpr (validStack_mem_lt nodes _ hvs x hx)
    have hlen := (List.subperm_of_subset hnd hsub).length_le
    rw [List.length_range, List.length_cons] at hlen
    omega
  | succ fuel ih =>
    intro i s d st hvs hle
    rw [place]
    by_cases hc : (childIdx nodes (nodes.getD i dfltNode).id).isEmpty = true
    · rw [if_pos hc]
      rfl
    · rw [if_neg hc]
      have hall : ∀ j ∈ childIdx nodes (nodes.getD i dfltNode).id,
          ∀ (d' : Nat) (st' : LayoutSt), (place nodes fuel j d' st').isSome = true := by
        intro j hj d' st'
        exact ih j (i :: s) d' st' (ValidStack.child j i s hvs hj)
          (by rw [List.length_cons]; omega)
      have hpc := placeChildren_isSome (place nodes fuel) _ hall (d + 1) st
      cases hres : placeChildren (place nodes fuel)
          (childIdx nodes (nodes.getD i dfltNode).id) (d + 1) st with
      | none =>
        rw [hres] at hpc
        exact Bool.noConfusion hpc
      | some stps =>
        obtain ⟨st', ps⟩ := stps
        rfl

/-- With pairwise-distinct ids the whole layout terminates: fuel
`nodes.length + 1` is never exhausted. -/
theorem autoLayout_isSome (nodes : List NodeT) (hid : (nodes.map NodeT.id).Nodup) :
    (autoLayout nodes).isSome = true := by
  have hall : ∀ j ∈ rootsIdx nodes, ∀ (d : Nat) (st : LayoutSt),
      (place nodes (nodes.length + 1) j d st).isSome = true := by
    intro j hj d st
    exact place_isSome nodes hid (nodes.length + 1) j [] d st (ValidStack.root j hj)
      (by simp)
  have hrun := placeChildren_isSome (place nodes (nodes.length + 1)) (rootsIdx nodes)
    hall 0 { cursorX := 0, pos := [] }
  rw [autoLayout]
  cases hres : layoutRun nodes with
  | none =>
    rw [layoutRun] at hres
    rw [hres] at hrun
    exact Bool.noConfusion hrun
  | some stps => rfl

/-- Duplicate-id input on which the source recursion diverges: a two-node
parent cycle (`a ↔ b`) plus a second node with the duplicated id `a` that
is a root, making the cycle reachable. -/
def cyc10 : List NodeT :=
  [{ id := "a", label := "", x := 0, y := 0, parentId := some "b" },
   { id := "b", label := "", x := 0, y := 0, parentId := some "a" },
   { id := "a", label := "", x := 0, y := 0, parentId := none }]

theorem cyc10_children_a : childIdx cyc10 "a" = [1] := by decide

theorem cyc10_children_b : childIdx cyc10 "b" = [0] := by decide

theorem cyc10_place_cycle :
    ∀ (fuel d : Nat) (st : LayoutSt),
      place cyc10 fuel 0 d st = none ∧ place cyc10 fuel 1 d st = none := by
  intro fuel
  induction fuel with
  | zero => intro d st; exact ⟨rfl, rfl⟩
  | succ fuel ih =>
    intro d st
    constructor
    · rw [place]
      have hch : childIdx cyc10 (cyc10.getD 0 dfltNode).id = [1] := cyc10_children_a
      rw [hch, if_neg (by decide), placeChildren, (ih (d + 1) st).2]
    · rw [place]
      have hch : childIdx cyc10 (cyc10.getD 1 dfltNode).id = [0] := cyc10_children_b
      rw [hch, if_neg (by decide), placeChildren, (ih (d + 1) st).1]

theorem cyc10_place_root :
    ∀ (fuel d : Nat) (st : LayoutSt), place cyc10 fuel 2 d st = none := by
  intro fuel
  cases fuel with
  | zero => intro d st; rfl
  | succ fuel =>
    intro d st
    rw [place]
    have hch : childIdx cyc10 (cyc10.getD 2 dfltNode).id = [1] := cyc10_children_a
    rw [hch, if_neg (by decide), placeChildren, (cyc10_place_cycle fuel (d + 1) st).2]

/-- C10: with pairwise-distinct ids `autoLayout` always terminates — even
with dangling or cyclic parent references, since no cycle node is reachable
from a root — and distinctness is necessary: on the duplicate-id input
`cyc10` the recursion diverges (no amount of fuel makes `place` return). -/
theorem claim_C10 :
    (∀ nodes : List NodeT, (nodes.map NodeT.id).Nodup →
      (autoLayout nodes).isSome = true) ∧
    ¬ (cyc10.map NodeT.id).Nodup ∧
    (∀ (fuel d : Nat) (st : LayoutSt), place cyc10 fuel 2 d st = none) ∧
    autoLayout cyc10 = none := by
  refine ⟨fun nodes hid => autoLayout_isSome nodes hid, by decide, cyc10_place_root, ?_⟩
  have hroots : rootsIdx cyc10 = [2] := by decide
  have hrun : layoutRun cyc10 = none := by
    rw [layoutRun, hroots, placeChildren,
      cyc10_place_root (cyc10.length + 1) 0 { cursorX := 0, pos := [] }]
  rw [autoLayout, hrun]

/-- Closed-instance witness for C10: `wit4` has pairwise-distinct ids and
its layout terminates. -/
theorem claim_C10_witness :
    (wit4.map NodeT.id).Nodup ∧ (autoLayout wit4).isSome = true :=
  ⟨by decide, claim_C10.1 wit4 (by decide)⟩
